import Mathlib

/-!
Shallow embedding of `src/telemetric/statswrapper/_stats_wrapper.c`.

The wrapper records call telemetry for a wrapped Python callable.  Python
object values are modelled by an arbitrary type `V` with decidable equality;
Lean equality on `V` plays the role of pointer identity (`==` in C), while
Python rich comparison `PyObject_RichCompareBool(a, b, Py_EQ)` is modelled by
an explicit function `richEq : V → V → CmpRes` passed as a parameter.  The
wrapped callable is modelled as a pure function returning `Except E R`
(`Except.error` = the delegated call raised, i.e. returned NULL).
Machine counters (`Py_ssize_t`) only ever increase by one per event, so they
are modelled by `Nat`; `npos` is modelled by `Int` because `_set_npos` can
store any `Py_ssize_t` value, including negative ones.
-/

/-- Result of `PyObject_RichCompareBool(a, b, Py_EQ)`: `ok b` is a clean
return of 0/1; `softErr` is a raised non-fatal exception; `fatalErr` is one of
RecursionError, MemoryError, KeyboardInterrupt (the fatal subset tested at
`_stats_wrapper.c:49-51`). -/
inductive CmpRes where
  | ok : Bool → CmpRes
  | softErr : CmpRes
  | fatalErr : CmpRes
deriving DecidableEq, Repr

/-- One per-parameter bookkeeping record (`arginfo` struct,
`_stats_wrapper.c:7-12`). -/
structure arginfo (V : Type) where
  kwname : Option V
  known_params : Option (List V)
  count : Nat
  param_counts : List Nat
deriving DecidableEq, Repr

/-- The wrapper state (`StatsWrapperObject`, `_stats_wrapper.c:15-26`).
`args` holds the `Py_SIZE - 1` real slots; the all-NULL terminator slot of the
C flexible array is represented by the end of the list. -/
structure StatsWrapperObject (V : Type) where
  total_calls : Nat
  invalid_args : Nat
  error_results : Nat
  npos : Int
  npos_only : Nat
  args : List (arginfo V)
deriving DecidableEq, Repr

/-- Increment `param_counts[idx]`. -/
def incAt : List Nat → Nat → List Nat
  | [], _ => []
  | c :: rest, 0 => (c + 1) :: rest
  | c :: rest, n + 1 => c :: incAt rest n

variable {V : Type} [DecidableEq V] {E R : Type}

/-- First identity-scan loop of `handle_arg_stats` (`_stats_wrapper.c:37-41`):
index of the first known value identical to `arg`, or `known.length` if the
loop exhausts. -/
def identScan (known : List V) (arg : V) : Nat :=
  match known with
  | [] => 0
  | k :: rest => if k = arg then 0 else identScan rest arg + 1

/-- Second, equality-fallback loop of `handle_arg_stats`
(`_stats_wrapper.c:43-60`).  `none` means a fatal comparison error was raised
(the C function returns -1).  `some idx` is the loop index at exit:
`known.length` when the scan exhausts; on `CmpRes.ok true` the loop breaks at
the current index; on `CmpRes.softErr` the error is cleared but `eq` is still
-1, so `if (eq)` also breaks at the current index. -/
def eqScan (richEq : V → V → CmpRes) (known : List V) (arg : V) : Option Nat :=
  match known with
  | [] => some 0
  | k :: rest =>
    match richEq k arg with
    | CmpRes.fatalErr => none
    | CmpRes.ok true => some 0
    | CmpRes.softErr => some 0
    | CmpRes.ok false => (eqScan richEq rest arg).map (· + 1)

/-- Embedding of `handle_arg_stats` (`_stats_wrapper.c:29-67`).  Returns the updated slot
and an abort flag (`true` iff the C function returns -1).  Note `count++`
happens first, so the increment persists even on abort. -/
def handle_arg_stats (richEq : V → V → CmpRes) (a : arginfo V) (arg : V) :
    arginfo V × Bool :=
  let a1 : arginfo V := { a with count := a.count + 1 }
  match a1.known_params with
  | none => (a1, false)
  | some known =>
    let idIdx := identScan known arg
    if idIdx = known.length then
      match eqScan richEq known arg with
      | none => (a1, true)
      | some idx =>
        if idx = known.length then (a1, false)
        else ({ a1 with param_counts := incAt a1.param_counts idx }, false)
    else ({ a1 with param_counts := incAt a1.param_counts idIdx }, false)

/-- The positional loop of `statswrapper_vectorcall` (`_stats_wrapper.c:84-88`):
slot `i` classifies positional argument `i`.  Second component is the abort
flag; mutations made before an abort persist. -/
def posLoop (richEq : V → V → CmpRes) :
    List (arginfo V) → List V → List (arginfo V) × Bool
  | slots, [] => (slots, false)
  | [], _ :: _ => ([], false)
  | s :: rest, a :: as =>
    match handle_arg_stats richEq s a with
    | (s', true) => (s' :: rest, true)
    | (s', false) =>
      let r := posLoop richEq rest as
      (s' :: r.1, r.2)

/-- Fast identity scan for a keyword name (`_stats_wrapper.c:95-104`), run over
`args` from index `npos_only`; stops at the first slot with NULL `kwname` (the
terminator).  Returns the relative index of the first identity match. -/
def kwIdentScan : List (arginfo V) → V → Option Nat
  | [], _ => none
  | s :: rest, name =>
    match s.kwname with
    | none => none
    | some n => if n = name then some 0 else (kwIdentScan rest name).map (· + 1)

/-- Outcome of the keyword-name equality fallback scan. -/
inductive KwFind where
  | found : Nat → KwFind
  | notFound : KwFind
  | abort : KwFind
deriving DecidableEq, Repr

/-- Equality fallback scan for a keyword name (`_stats_wrapper.c:105-119`).
Any comparison error, fatal or not, makes the C code `return NULL`
("Should never happen, so error out right here"). -/
def kwEqScan (richEq : V → V → CmpRes) : List (arginfo V) → V → KwFind
  | [], _ => KwFind.notFound
  | s :: rest, name =>
    match s.kwname with
    | none => KwFind.notFound
    | some n =>
      match richEq n name with
      | CmpRes.fatalErr => KwFind.abort
      | CmpRes.softErr => KwFind.abort
      | CmpRes.ok true => KwFind.found 0
      | CmpRes.ok false =>
        match kwEqScan richEq rest name with
        | KwFind.found k => KwFind.found (k + 1)
        | KwFind.notFound => KwFind.notFound
        | KwFind.abort => KwFind.abort

/-- Apply `handle_arg_stats` to the slot at absolute index `idx`
(`_stats_wrapper.c:122`). -/
def handleAt (richEq : V → V → CmpRes) (slots : List (arginfo V)) (idx : Nat)
    (v : V) : List (arginfo V) × Bool :=
  match slots.get? idx with
  | none => (slots, false)
  | some s =>
    let r := handle_arg_stats richEq s v
    (slots.set idx r.1, r.2)

/-- The keyword loop of `statswrapper_vectorcall` (`_stats_wrapper.c:91-129`).
Returns (slots, invalid-flag, abort-flag).  The invalid flag mirrors the local
`invalid_args` variable as far as keyword arguments set it. -/
def kwLoop (richEq : V → V → CmpRes) (nposOnly : Nat) :
    List (arginfo V) → List (V × V) → List (arginfo V) × Bool × Bool
  | slots, [] => (slots, false, false)
  | slots, (name, v) :: rest =>
    match kwIdentScan (slots.drop nposOnly) name with
    | some k =>
      match handleAt richEq slots (nposOnly + k) v with
      | (slots', true) => (slots', false, true)
      | (slots', false) =>
        let r := kwLoop richEq nposOnly slots' rest
        (r.1, r.2.1, r.2.2)
    | none =>
      match kwEqScan richEq (slots.drop nposOnly) name with
      | KwFind.abort => (slots, false, true)
      | KwFind.found k =>
        match handleAt richEq slots (nposOnly + k) v with
        | (slots', true) => (slots', false, true)
        | (slots', false) =>
          let r := kwLoop richEq nposOnly slots' rest
          (r.1, r.2.1, r.2.2)
      | KwFind.notFound =>
        let r := kwLoop richEq nposOnly slots rest
        (r.1, true, r.2.2)

/-- Increment applied to `error_results`: 1 iff the delegated call returned NULL
(`_stats_wrapper.c:134-136`). -/
def errIncr : Except E R → Nat
  | Except.error _ => 1
  | Except.ok _ => 0

/-- Embedding of `statswrapper_vectorcall` (`_stats_wrapper.c:70-138`).  A call supplies
positional values `pos` and keyword arguments `kwnames`/`kwvals` (the C args
array is `pos ++ kwvals`).  The result is the updated state together with
`none` when classification aborted before delegation (the C function returns
NULL with no counter update), or `some (wrapped pos kwnames kwvals)` when the
call was delegated. -/
def statswrapper_vectorcall (richEq : V → V → CmpRes)
    (wrapped : List V → List V → List V → Except E R)
    (self : StatsWrapperObject V) (pos kwnames kwvals : List V) :
    StatsWrapperObject V × Option (Except E R) :=
  let nargs := pos.length
  let invalid0 : Bool := decide ((nargs : Int) > self.npos)
  let nargs_valid : Nat :=
    if (nargs : Int) > self.npos then self.npos.toNat else nargs
  let r1 := posLoop richEq self.args (pos.take nargs_valid)
  if r1.2 then ({ self with args := r1.1 }, none)
  else
    let r2 := kwLoop richEq self.npos_only r1.1 (kwnames.zip kwvals)
    if r2.2.2 then ({ self with args := r2.1 }, none)
    else
      let invalid : Bool := invalid0 || r2.2.1
      let res := wrapped pos kwnames kwvals
      ({ self with
          args := r2.1,
          total_calls := self.total_calls + 1,
          invalid_args := self.invalid_args + (if invalid then 1 else 0),
          error_results := self.error_results + errIncr res },
        some res)

/-- Embedding of `statswrapper__set_npos` (`_stats_wrapper.c:193-206`).  The Boolean is
`true` iff the range check failed and `PyErr_SetString` ran.  The C code does
NOT return after setting the error: `self->npos = npos` executes regardless,
and the function returns `Py_None` even with the error set. -/
def statswrapper__set_npos (self : StatsWrapperObject V) (npos : Int) :
    StatsWrapperObject V × Bool :=
  let errSet : Bool :=
    decide (npos < (self.npos_only : Int)) || decide (npos > (self.args.length : Int))
  ({ self with npos := npos }, errSet)

/-- Build one slot at construction (`_stats_wrapper.c:317-342`): `none` spec =
`Py_None` (untracked), `some known` = a tuple of known values with a
zero-initialised parallel counter array. -/
def mkArginfo (kwname : Option V) (spec : Option (List V)) : arginfo V :=
  { kwname := kwname
    known_params := spec
    count := 0
    param_counts :=
      match spec with
      | none => []
      | some known => List.replicate known.length 0 }

/-- Embedding of `stats_wrapper_create` (`_stats_wrapper.c:275-345`) after successful
validation: `posSpecs` are the positional specs, `kwSpecs` the keyword specs
(name, spec).  `npos_only = nargs`, `npos = total_args`. -/
def stats_wrapper_create (posSpecs : List (Option (List V)))
    (kwSpecs : List (V × Option (List V))) : StatsWrapperObject V :=
  { total_calls := 0
    invalid_args := 0
    error_results := 0
    npos_only := posSpecs.length
    npos := ((posSpecs.length + kwSpecs.length : Nat) : Int)
    args := posSpecs.map (mkArginfo none) ++
      kwSpecs.map (fun p => mkArginfo (some p.1) p.2) }

/-- One observable transition on a wrapper: an invocation (with any wrapped
behaviour and any arguments) or a boundary reconfiguration. -/
inductive Step (richEq : V → V → CmpRes) :
    StatsWrapperObject V → StatsWrapperObject V → Prop where
  | invoke (s : StatsWrapperObject V)
      (wrapped : List V → List V → List V → Except Unit Unit)
      (pos kwnames kwvals : List V) :
      Step richEq s (statswrapper_vectorcall richEq wrapped s pos kwnames kwvals).1
  | reconfig (s : StatsWrapperObject V) (n : Int) :
      Step richEq s (statswrapper__set_npos s n).1

/-- Reflexive-transitive closure of `Step`. -/
inductive StepStar (richEq : V → V → CmpRes) :
    StatsWrapperObject V → StatsWrapperObject V → Prop where
  | refl (s : StatsWrapperObject V) : StepStar richEq s s
  | tail {s t u : StatsWrapperObject V} :
      StepStar richEq s t → Step richEq t u → StepStar richEq s u

/-- A wrapper state reachable from some construction by invocations and
reconfigurations. -/
def Reachable (richEq : V → V → CmpRes) (s : StatsWrapperObject V) : Prop :=
  ∃ posSpecs kwSpecs, StepStar richEq (stats_wrapper_create posSpecs kwSpecs) s

/-! Concrete fixtures used by closed theorems and witnesses. -/

/-- Equality semantics in which every comparison cleanly returns "not equal". -/
def cmpAllFalse : Nat → Nat → CmpRes := fun _ _ => CmpRes.ok false

/-- Equality semantics raising a fatal condition exactly when comparing the
known value 0 against the argument 1. -/
def cmpFatal01 : Nat → Nat → CmpRes := fun a b =>
  if a = 0 ∧ b = 1 then CmpRes.fatalErr else CmpRes.ok false

/-- Equality semantics in which comparing the known value 0 raises a non-fatal
exception, while 1 = 2 compares true. -/
def cmpSoftCase : Nat → Nat → CmpRes := fun a b =>
  if a = 0 then CmpRes.softErr
  else if a = 1 ∧ b = 2 then CmpRes.ok true
  else CmpRes.ok false

/-- Equality semantics in which every comparison raises a non-fatal
exception. -/
def cmpAllSoft : Nat → Nat → CmpRes := fun _ _ => CmpRes.softErr

/-- A wrapped callable that always succeeds. -/
def wrapUnit : List Nat → List Nat → List Nat → Except Unit Unit :=
  fun _ _ _ => Except.ok ()

/-- A wrapped callable that always raises. -/
def wrapFailUnit : List Nat → List Nat → List Nat → Except Unit Unit :=
  fun _ _ _ => Except.error ()

/-- Wrapper fixture: one positional-only slot with known values `(0,)` and one
keyword slot named `7`, untracked. -/
def wPosKw : StatsWrapperObject Nat := stats_wrapper_create [some [0]] [(7, none)]

/-- Wrapper fixture: one positional slot with known values `(0, 1)`. -/
def wKnown01 : StatsWrapperObject Nat := stats_wrapper_create [some [0, 1]] []

/-- Wrapper fixture: one keyword-only slot named `5`, untracked. -/
def wKwOnly5 : StatsWrapperObject Nat := stats_wrapper_create [] [(5, none)]

/-! Characterisation of the scan loops, used for C3, C6, C8. -/

/-- Index of the first element satisfying `p`, if any. -/
def firstIdxP {α : Type} (p : α → Bool) : List α → Option Nat
  | [] => none
  | x :: xs => if p x then some 0 else (firstIdxP p xs).map (· + 1)

/-- Spec-side matching rule (§4.1 step 2 of the spec, and C6): first scan the
known values in declared order by identity; only if no identity match exists,
rescan in the same order by value equality.  Returns the matching index. -/
def spec_matchIndex (richEq : V → V → CmpRes) (known : List V) (arg : V) :
    Option Nat :=
  match firstIdxP (fun k => decide (k = arg)) known with
  | some j => some j
  | none => firstIdxP (fun k => decide (richEq k arg = CmpRes.ok true)) known

/-- Equality semantics in which comparisons succeed and agree with identity. -/
def cmpEqNat : Nat → Nat → CmpRes := fun a b => CmpRes.ok (decide (a = b))

/-! Monotonicity of all counters (C9). -/

/-- Slot-level "no counter decreased": the slot count and every per-value
count is at least its old value. -/
def argLE (a b : arginfo V) : Prop :=
  a.count ≤ b.count ∧ List.Forall₂ (· ≤ ·) a.param_counts b.param_counts

/-- List-of-slots-level "no counter decreased". -/
def argsLE (xs ys : List (arginfo V)) : Prop := List.Forall₂ argLE xs ys

/-- The two cross-counter bounds of the spec. -/
def countersBounded (s : StatsWrapperObject V) : Prop :=
  s.error_results ≤ s.total_calls ∧ s.invalid_args ≤ s.total_calls

/-- The Boolean predicate of the spec-side equality fallback for keyword
names. -/
def kwEqPred (richEq : V → V → CmpRes) (name : V) (t : arginfo V) : Bool :=
  match t.kwname with
  | some n => decide (richEq n name = CmpRes.ok true)
  | none => false

/-- Spec-side keyword slot lookup (§4.1 step 3 and C8): among the slots after
`positional_only_count`, find the first whose stored name is identical to the
supplied name; only if none is, the first whose stored name compares equal. -/
def spec_kwFindIdx (richEq : V → V → CmpRes) (tail : List (arginfo V))
    (name : V) : Option Nat :=
  match firstIdxP (fun t => decide (t.kwname = some name)) tail with
  | some j => some j
  | none => firstIdxP (kwEqPred richEq name) tail

/-! Machinery for C10. -/

/-- The slot list produced by an abort-free positional loop. -/
def posApply (richEq : V → V → CmpRes) :
    List (arginfo V) → List V → List (arginfo V)
  | slots, [] => slots
  | [], _ :: _ => []
  | s :: rest, a :: as =>
    (handle_arg_stats richEq s a).1 :: posApply richEq rest as

/-- Wrapper fixture for the dual-supply scenario: one slot, reachable both
positionally and as keyword `5`, with known values `(0,)`. -/
def wDual : StatsWrapperObject Nat := stats_wrapper_create [] [(5, some [0])]

/-- C1: the spec claims `set_positional_boundary(k)` with `k` out of range
fails with a RangeError and leaves the state unchanged.  The code does raise
(`PyErr_SetString` runs, second component `true`) but the `return NULL` after
it is missing (`_stats_wrapper.c:200-204`), so `self->npos = npos` still
executes: on the fixture (`npos_only = 1`, 2 slots, `npos = 2`) the call
`_set_npos(0)` raises yet mutates `npos` from 2 to 0. -/
theorem set_npos_out_of_range_raises_but_mutates :
    (statswrapper__set_npos wPosKw 0).2 = true ∧
    wPosKw.npos = 2 ∧
    (statswrapper__set_npos wPosKw 0).1.npos = 0 := by
  refine ⟨rfl, rfl, rfl⟩

/-- C5: the spec claims `positional_only_count ≤ positional_boundary ≤
total_slot_count` in every reachable state.  Because `_set_npos` mutates even
on a failed range check (`_stats_wrapper.c:200-204`), the state after
`_set_npos(0)` on the fixture (`npos_only = 1`) is reachable and violates the
lower bound. -/
theorem reachable_state_violates_npos_bounds :
    Reachable cmpAllFalse (statswrapper__set_npos wPosKw 0).1 ∧
    (statswrapper__set_npos wPosKw 0).1.npos <
      ((statswrapper__set_npos wPosKw 0).1.npos_only : Int) := by
  constructor
  · exact ⟨[some [0]], [(7, none)],
      StepStar.tail (StepStar.refl _) (Step.reconfig _ 0)⟩
  · decide

/-- C2 counterexample: the claim says a fatal comparison condition aborts the
call with *no* counter incremented, including slot counts.  In
`handle_arg_stats` the slot count is incremented before the comparison runs
(`_stats_wrapper.c:32`), so after a fatal abort (delegation never happens,
result `none`) the slot count is already 1, not 0. -/
theorem fatal_comparison_abort_keeps_slot_count_increment :
    ((statswrapper_vectorcall cmpFatal01 wrapUnit
        (stats_wrapper_create [some [0]] []) [1] [] []).2 = none) ∧
    ((statswrapper_vectorcall cmpFatal01 wrapUnit
        (stats_wrapper_create [some [0]] []) [1] [] []).1.args.map arginfo.count
      = [1]) := by
  refine ⟨rfl, rfl⟩

/-- C3 counterexample: the claim says every non-fatal comparison failure is
treated as "no match", scanning continues and the call is never aborted.  The
code diverges twice.  (i) In the known-value scan, after `PyErr_Clear()` the
variable `eq` is still -1, so `if (eq)` breaks and `param_counts[idx]++` runs
(`_stats_wrapper.c:48-64`): with known values `(0, 1)` and argument `2`, the
soft failure at index 0 is counted as a match, yielding per-value counts
`[1, 0]` instead of continuing to the true equality at index 1 (`[0, 1]`).
(ii) In the keyword-name scan any comparison failure makes the call abort with
`return NULL` (`_stats_wrapper.c:110-113`): the soft failure makes the whole
call return `none`, undelegated. -/
theorem soft_comparison_failure_divergences :
    ((statswrapper_vectorcall cmpSoftCase wrapUnit wKnown01 [2] [] []).1.args.map
        arginfo.param_counts = [[1, 0]]) ∧
    ((statswrapper_vectorcall cmpSoftCase wrapUnit wKnown01 [2] [] []).2
      = some (Except.ok ())) ∧
    ((statswrapper_vectorcall cmpAllSoft wrapUnit wKwOnly5 [] [7] [9]).2 = none) := by
  refine ⟨rfl, rfl, rfl⟩

/-- C2 (amended): a call whose classification aborts (the only aborting
conditions are a fatal known-value comparison or a failing keyword-name
comparison) is never delegated — its outcome is independent of the wrapped
callable — and `total_calls`, `error_count` and `invalid_arg_count` are not
incremented for it.  (Slot counts already incremented before the abort
persist, which is why the original claim fails; see the counterexample.) -/
theorem aborted_call_leaves_call_counters_unchanged
    (richEq : V → V → CmpRes) (s : StatsWrapperObject V) (pos kwnames kwvals : List V)
    (f g : List V → List V → List V → Except E R)
    (h : (statswrapper_vectorcall richEq f s pos kwnames kwvals).2 = none) :
    (statswrapper_vectorcall richEq f s pos kwnames kwvals).1.total_calls = s.total_calls ∧
    (statswrapper_vectorcall richEq f s pos kwnames kwvals).1.error_results = s.error_results ∧
    (statswrapper_vectorcall richEq f s pos kwnames kwvals).1.invalid_args = s.invalid_args ∧
    statswrapper_vectorcall richEq f s pos kwnames kwvals =
      statswrapper_vectorcall richEq g s pos kwnames kwvals := by
  simp only [statswrapper_vectorcall] at h ⊢
  split_ifs at h ⊢ <;> exact ⟨rfl, rfl, rfl, rfl⟩

/-- Witness for `aborted_call_leaves_call_counters_unchanged`: the fatal
comparison of known value 0 against argument 1 aborts the call. -/
theorem aborted_call_leaves_call_counters_unchanged_witness :
    (statswrapper_vectorcall cmpFatal01 wrapUnit
        (stats_wrapper_create [some [0]] []) [1] [] []).2 = none ∧
    ((statswrapper_vectorcall cmpFatal01 wrapUnit
        (stats_wrapper_create [some [0]] []) [1] [] []).1.total_calls =
      (stats_wrapper_create (V := Nat) [some [0]] []).total_calls ∧
    (statswrapper_vectorcall cmpFatal01 wrapUnit
        (stats_wrapper_create [some [0]] []) [1] [] []).1.error_results =
      (stats_wrapper_create (V := Nat) [some [0]] []).error_results ∧
    (statswrapper_vectorcall cmpFatal01 wrapUnit
        (stats_wrapper_create [some [0]] []) [1] [] []).1.invalid_args =
      (stats_wrapper_create (V := Nat) [some [0]] []).invalid_args ∧
    statswrapper_vectorcall cmpFatal01 wrapUnit
        (stats_wrapper_create [some [0]] []) [1] [] [] =
      statswrapper_vectorcall cmpFatal01 wrapFailUnit
        (stats_wrapper_create [some [0]] []) [1] [] []) :=
  ⟨rfl, aborted_call_leaves_call_counters_unchanged cmpFatal01
    (stats_wrapper_create [some [0]] []) [1] [] [] wrapUnit wrapFailUnit rfl⟩

/-- C4: a delegated call passes the original arguments unchanged to the
wrapped callable, returns/raises exactly its result (`res` is returned as-is,
`_stats_wrapper.c:133-137`), and `error_results` is incremented by one exactly
when the delegated call signals failure. -/
theorem vectorcall_delegates_and_propagates_unchanged
    (richEq : V → V → CmpRes) (f : List V → List V → List V → Except E R)
    (s : StatsWrapperObject V) (pos kwnames kwvals : List V) (out : Except E R)
    (h : (statswrapper_vectorcall richEq f s pos kwnames kwvals).2 = some out) :
    out = f pos kwnames kwvals ∧
    (statswrapper_vectorcall richEq f s pos kwnames kwvals).1.error_results =
      s.error_results + errIncr out ∧
    (statswrapper_vectorcall richEq f s pos kwnames kwvals).1.total_calls =
      s.total_calls + 1 := by
  simp only [statswrapper_vectorcall] at h ⊢
  split_ifs at h ⊢ <;>
    simp only [Option.some.injEq] at h <;>
    refine ⟨h.symm, ?_, rfl⟩ <;>
    · show s.error_results + errIncr (f pos kwnames kwvals) =
        s.error_results + errIncr out
      rw [h]

/-- Witness for `vectorcall_delegates_and_propagates_unchanged`: a failing
wrapped callable has its failure propagated and counted. -/
theorem vectorcall_delegates_and_propagates_unchanged_witness :
    (statswrapper_vectorcall cmpAllFalse wrapFailUnit wKnown01 [0] [] []).2 =
      some (Except.error ()) ∧
    (Except.error () = wrapFailUnit [0] [] [] ∧
    (statswrapper_vectorcall cmpAllFalse wrapFailUnit wKnown01 [0] [] []).1.error_results =
      wKnown01.error_results + errIncr (Except.error () : Except Unit Unit) ∧
    (statswrapper_vectorcall cmpAllFalse wrapFailUnit wKnown01 [0] [] []).1.total_calls =
      wKnown01.total_calls + 1) :=
  ⟨rfl, vectorcall_delegates_and_propagates_unchanged cmpAllFalse wrapFailUnit
    wKnown01 [0] [] [] (Except.error ()) rfl⟩

theorem firstIdxP_lt_length {α : Type} (p : α → Bool) :
    ∀ (l : List α) (j : Nat), firstIdxP p l = some j → j < l.length := by
  intro l
  induction l with
  | nil => intro j h; simp [firstIdxP] at h
  | cons x xs ih =>
    intro j h
    simp only [firstIdxP] at h
    by_cases hp : p x
    · rw [if_pos hp] at h
      cases h
      simp
    · rw [if_neg hp] at h
      rcases hx : firstIdxP p xs with _ | j'
      · rw [hx] at h; simp at h
      · rw [hx] at h
        simp only [Option.map_some'] at h
        cases h
        have := ih j' hx
        simp only [List.length_cons]
        omega

theorem identScan_of_firstIdxP_none (known : List V) (arg : V)
    (h : firstIdxP (fun k => decide (k = arg)) known = none) :
    identScan known arg = known.length := by
  induction known with
  | nil => rfl
  | cons k rest ih =>
    simp only [firstIdxP] at h
    by_cases hk : k = arg
    · rw [if_pos (by simp [hk])] at h; exact absurd h (by simp)
    · rw [if_neg (by simp [hk])] at h
      simp only [identScan, if_neg hk, List.length_cons]
      rcases hx : firstIdxP (fun k => decide (k = arg)) rest with _ | j'
      · rw [ih hx]
      · rw [hx] at h; simp at h

theorem identScan_of_firstIdxP_some (known : List V) (arg : V) :
    ∀ (j : Nat), firstIdxP (fun k => decide (k = arg)) known = some j →
    identScan known arg = j := by
  induction known with
  | nil => intro j h; simp [firstIdxP] at h
  | cons k rest ih =>
    intro j h
    simp only [firstIdxP] at h
    by_cases hk : k = arg
    · rw [if_pos (by simp [hk])] at h
      cases h
      simp [identScan, hk]
    · rw [if_neg (by simp [hk])] at h
      rcases hx : firstIdxP (fun k => decide (k = arg)) rest with _ | j'
      · rw [hx] at h; simp at h
      · rw [hx] at h
        simp only [Option.map_some'] at h
        cases h
        simp only [identScan, if_neg hk]
        rw [ih j' hx]

theorem eqScan_clean (richEq : V → V → CmpRes) (arg : V) :
    ∀ (known : List V),
    (∀ k ∈ known, ∃ b, richEq k arg = CmpRes.ok b) →
    eqScan richEq known arg =
      some ((firstIdxP (fun k => decide (richEq k arg = CmpRes.ok true))
        known).getD known.length) := by
  intro known
  induction known with
  | nil => intro _; rfl
  | cons k rest ih =>
    intro h
    obtain ⟨b, hb⟩ := h k (by simp)
    have hrest := ih (fun k' hk' => h k' (by simp [hk']))
    cases b with
    | true =>
      simp only [eqScan, hb, firstIdxP]
      rw [if_pos (by simp [hb])]
      rfl
    | false =>
      simp only [eqScan, hb, firstIdxP]
      rw [if_neg (by simp [hb])]
      rw [hrest]
      rcases hx : firstIdxP (fun k => decide (richEq k arg = CmpRes.ok true)) rest
        with _ | j'
      · simp [hx]
      · simp [hx]

/-- The scan `eqScan` aborts only when some comparison in the list raised a fatal
condition. -/
theorem eqScan_none_fatal (richEq : V → V → CmpRes) (arg : V) :
    ∀ (known : List V), eqScan richEq known arg = none →
    ∃ k ∈ known, richEq k arg = CmpRes.fatalErr := by
  intro known
  induction known with
  | nil => intro h; simp [eqScan] at h
  | cons k rest ih =>
    intro h
    simp only [eqScan] at h
    rcases hk : richEq k arg with b | _ | _
    · cases b with
      | true => rw [hk] at h; simp at h
      | false =>
        rw [hk] at h
        rcases hx : eqScan richEq rest arg with _ | j'
        · obtain ⟨k', hk', hf⟩ := ih hx
          exact ⟨k', by simp [hk'], hf⟩
        · rw [hx] at h; simp at h
    · rw [hk] at h; simp at h
    · exact ⟨k, by simp, hk⟩

/-- Classification of an argument aborts only when some known-value
comparison raised a fatal condition. -/
theorem handle_abort_has_fatal (richEq : V → V → CmpRes)
    (a : arginfo V) (arg : V)
    (h : (handle_arg_stats richEq a arg).2 = true) :
    ∃ k ∈ a.known_params.getD [], richEq k arg = CmpRes.fatalErr := by
  rcases hkp : a.known_params with _ | known
  · simp only [handle_arg_stats, hkp] at h
    cases h
  · simp only [handle_arg_stats, hkp] at h
    simp only [Option.getD_some]
    by_cases hid : identScan known arg = known.length
    · rw [if_pos hid] at h
      rcases hx : eqScan richEq known arg with _ | j
      · exact eqScan_none_fatal richEq arg known hx
      · simp only [hx] at h
        by_cases hj : j = known.length
        · rw [if_pos hj] at h; cases h
        · rw [if_neg hj] at h; cases h
    · rw [if_neg hid] at h
      cases h

/-- C3 (amended, main part): classification of an argument against a slot's
known values aborts the call only when some known-value comparison raised a
fatal condition; in particular an ordinary (non-fatal) comparison failure
never aborts it.  (It does, however, end the scan with the failing pair
counted as a match, and an ordinary failure when comparing a keyword *name*
aborts the whole call — see the counterexample.) -/
theorem value_classification_aborts_only_on_fatal (richEq : V → V → CmpRes)
    (a : arginfo V) (arg : V)
    (h : (handle_arg_stats richEq a arg).2 = true) :
    ∃ k ∈ a.known_params.getD [], richEq k arg = CmpRes.fatalErr :=
  handle_abort_has_fatal richEq a arg h

/-- Witness for `value_classification_aborts_only_on_fatal`. -/
theorem value_classification_aborts_only_on_fatal_witness :
    (handle_arg_stats cmpFatal01 (mkArginfo none (some [0])) 1).2 = true ∧
    ∃ k ∈ (mkArginfo (V := Nat) none (some [0])).known_params.getD [],
      cmpFatal01 k 1 = CmpRes.fatalErr :=
  ⟨rfl, value_classification_aborts_only_on_fatal cmpFatal01
    (mkArginfo none (some [0])) 1 rfl⟩

/-- C6: when no known-value comparison errors, `handle_arg_stats` increments
the slot count and then increments exactly the per-value count at the index
given by the identity-first, equality-fallback rule of the spec; on no match
only the slot count changes. -/
theorem classification_identity_then_equality_spec (richEq : V → V → CmpRes)
    (a : arginfo V) (arg : V) (known : List V)
    (hk : a.known_params = some known)
    (hclean : ∀ k ∈ known, ∃ b, richEq k arg = CmpRes.ok b) :
    handle_arg_stats richEq a arg =
      (match spec_matchIndex richEq known arg with
       | some j =>
         { a with count := a.count + 1, param_counts := incAt a.param_counts j }
       | none => { a with count := a.count + 1 }, false) := by
  simp only [handle_arg_stats, hk, spec_matchIndex]
  rcases hident : firstIdxP (fun k => decide (k = arg)) known with _ | j
  · have hid := identScan_of_firstIdxP_none known arg hident
    rw [hid, if_pos rfl, eqScan_clean richEq arg known hclean]
    rcases heq : firstIdxP (fun k => decide (richEq k arg = CmpRes.ok true)) known
      with _ | j
    · simp
    · have hlt := firstIdxP_lt_length _ known j heq
      simp only [Option.getD_some]
      rw [if_neg (Nat.ne_of_lt hlt)]
  · have hid := identScan_of_firstIdxP_some known arg j hident
    have hlt := firstIdxP_lt_length _ known j hident
    rw [hid, if_neg (Nat.ne_of_lt hlt)]

/-- Witness for `classification_identity_then_equality_spec`: known values
`(0, 1)` and argument `1` match at index 1. -/
theorem classification_identity_then_equality_spec_witness :
    (mkArginfo (V := Nat) none (some [0, 1])).known_params = some [0, 1] ∧
    (∀ k ∈ [0, 1], ∃ b, cmpEqNat k 1 = CmpRes.ok b) ∧
    handle_arg_stats cmpEqNat (mkArginfo none (some [0, 1])) 1 =
      (match spec_matchIndex cmpEqNat [0, 1] 1 with
       | some j =>
         { mkArginfo (V := Nat) none (some [0, 1]) with
             count := (mkArginfo (V := Nat) none (some [0, 1])).count + 1,
             param_counts :=
               incAt (mkArginfo (V := Nat) none (some [0, 1])).param_counts j }
       | none =>
         { mkArginfo (V := Nat) none (some [0, 1]) with
             count := (mkArginfo (V := Nat) none (some [0, 1])).count + 1 },
        false) :=
  ⟨rfl, by decide,
    classification_identity_then_equality_spec cmpEqNat
      (mkArginfo none (some [0, 1])) 1 [0, 1] rfl (by decide)⟩

/-- C7: a call with more positional arguments than the boundary is marked
invalid exactly once (`invalid_args` rises by 1 no matter what else was
invalid), only the first `npos` positional arguments affect the slots (the
excess is untracked: any other excess values give the same slot state), and
the call is still delegated with the original arguments. -/
theorem excess_positional_invalid_once_untracked_delegated
    (richEq : V → V → CmpRes) (f : List V → List V → List V → Except E R)
    (s : StatsWrapperObject V) (pos kwnames kwvals : List V) (out : Except E R)
    (hgt : (pos.length : Int) > s.npos)
    (h : (statswrapper_vectorcall richEq f s pos kwnames kwvals).2 = some out) :
    (statswrapper_vectorcall richEq f s pos kwnames kwvals).1.invalid_args =
      s.invalid_args + 1 ∧
    out = f pos kwnames kwvals ∧
    ∀ pos₂ : List V, pos₂.length = pos.length →
      pos₂.take s.npos.toNat = pos.take s.npos.toNat →
      (statswrapper_vectorcall richEq f s pos₂ kwnames kwvals).1.args =
        (statswrapper_vectorcall richEq f s pos kwnames kwvals).1.args := by
  have hd : decide ((pos.length : Int) > s.npos) = true := decide_eq_true hgt
  refine ⟨?_, ?_, ?_⟩
  · simp only [statswrapper_vectorcall, hd, Bool.true_or] at h ⊢
    split_ifs at h ⊢ <;> rfl
  · simp only [statswrapper_vectorcall] at h
    split_ifs at h <;> simp only [Option.some.injEq] at h <;> exact h.symm
  · intro pos₂ hlen htake
    have hgt2 : (pos₂.length : Int) > s.npos := by rw [hlen]; exact hgt
    simp only [statswrapper_vectorcall, if_pos hgt, if_pos hgt2, htake]
    split_ifs <;> rfl

/-- Witness for `excess_positional_invalid_once_untracked_delegated`:
two positional arguments against a boundary of 1. -/
theorem excess_positional_invalid_once_untracked_delegated_witness :
    ((([5, 6] : List Nat).length : Int) > wKnown01.npos) ∧
    ((statswrapper_vectorcall cmpAllFalse wrapUnit wKnown01 [5, 6] [] []).2 =
      some (Except.ok ())) ∧
    ((statswrapper_vectorcall cmpAllFalse wrapUnit wKnown01 [5, 6] [] []).1.invalid_args =
      wKnown01.invalid_args + 1 ∧
    Except.ok () = wrapUnit [5, 6] [] [] ∧
    ∀ pos₂ : List Nat, pos₂.length = ([5, 6] : List Nat).length →
      pos₂.take wKnown01.npos.toNat = ([5, 6] : List Nat).take wKnown01.npos.toNat →
      (statswrapper_vectorcall cmpAllFalse wrapUnit wKnown01 pos₂ [] []).1.args =
        (statswrapper_vectorcall cmpAllFalse wrapUnit wKnown01 [5, 6] [] []).1.args) :=
  ⟨by decide, rfl,
    excess_positional_invalid_once_untracked_delegated cmpAllFalse wrapUnit
      wKnown01 [5, 6] [] [] (Except.ok ()) (by decide) rfl⟩

theorem forall₂_le_refl : ∀ (l : List Nat), List.Forall₂ (· ≤ ·) l l := by
  intro l
  induction l with
  | nil => exact List.Forall₂.nil
  | cons x xs ih => exact List.Forall₂.cons (Nat.le_refl x) ih

theorem forall₂_le_trans :
    ∀ {xs ys zs : List Nat}, List.Forall₂ (· ≤ ·) xs ys →
      List.Forall₂ (· ≤ ·) ys zs → List.Forall₂ (· ≤ ·) xs zs := by
  intro xs ys zs h1
  induction h1 generalizing zs with
  | nil => intro h2; cases h2; exact List.Forall₂.nil
  | cons hxy _ ih =>
    intro h2
    cases h2 with
    | cons hyz h2' => exact List.Forall₂.cons (Nat.le_trans hxy hyz) (ih h2')

theorem argLE_refl (a : arginfo V) : argLE a a :=
  ⟨Nat.le_refl _, forall₂_le_refl _⟩

theorem argLE_trans {a b c : arginfo V} (h1 : argLE a b) (h2 : argLE b c) :
    argLE a c :=
  ⟨Nat.le_trans h1.1 h2.1, forall₂_le_trans h1.2 h2.2⟩

theorem argsLE_refl (xs : List (arginfo V)) : argsLE xs xs := by
  induction xs with
  | nil => exact List.Forall₂.nil
  | cons x xs ih => exact List.Forall₂.cons (argLE_refl x) ih

theorem argsLE_trans :
    ∀ {xs ys zs : List (arginfo V)}, argsLE xs ys → argsLE ys zs →
      argsLE xs zs := by
  intro xs ys zs h1
  induction h1 generalizing zs with
  | nil => intro h2; cases h2; exact List.Forall₂.nil
  | cons hxy _ ih =>
    intro h2
    cases h2 with
    | cons hyz h2' => exact List.Forall₂.cons (argLE_trans hxy hyz) (ih h2')

theorem incAt_le : ∀ (l : List Nat) (i : Nat), List.Forall₂ (· ≤ ·) l (incAt l i) := by
  intro l
  induction l with
  | nil => intro i; exact List.Forall₂.nil
  | cons c rest ih =>
    intro i
    cases i with
    | zero => exact List.Forall₂.cons (Nat.le_succ c) (forall₂_le_refl rest)
    | succ n => exact List.Forall₂.cons (Nat.le_refl c) (ih n)

theorem handle_arg_stats_le (richEq : V → V → CmpRes) (a : arginfo V) (arg : V) :
    argLE a (handle_arg_stats richEq a arg).1 := by
  rcases hkp : a.known_params with _ | known
  · simp only [handle_arg_stats, hkp]
    exact ⟨Nat.le_succ _, forall₂_le_refl _⟩
  · simp only [handle_arg_stats, hkp]
    split_ifs with hid
    · split
      · exact ⟨Nat.le_succ _, forall₂_le_refl _⟩
      · split_ifs with hj
        · exact ⟨Nat.le_succ _, forall₂_le_refl _⟩
        · exact ⟨Nat.le_succ _, incAt_le _ _⟩
    · exact ⟨Nat.le_succ _, incAt_le _ _⟩

theorem posLoop_le (richEq : V → V → CmpRes) :
    ∀ (ps : List V) (slots : List (arginfo V)),
      argsLE slots (posLoop richEq slots ps).1 := by
  intro ps
  induction ps with
  | nil => intro slots; simp only [posLoop]; exact argsLE_refl slots
  | cons a as ih =>
    intro slots
    cases slots with
    | nil => simp only [posLoop]; exact List.Forall₂.nil
    | cons s rest =>
      have hle := handle_arg_stats_le richEq s a
      rcases hh : handle_arg_stats richEq s a with ⟨s', ab⟩
      rw [hh] at hle
      cases ab
      · simp only [posLoop, hh]
        exact List.Forall₂.cons hle (ih rest)
      · simp only [posLoop, hh]
        exact List.Forall₂.cons hle (argsLE_refl rest)

theorem set_le (x : arginfo V) :
    ∀ (slots : List (arginfo V)) (idx : Nat) (s : arginfo V),
      slots.get? idx = some s → argLE s x → argsLE slots (slots.set idx x) := by
  intro slots
  induction slots with
  | nil => intro idx s hg; simp at hg
  | cons hd tl ih =>
    intro idx s hg hle
    cases idx with
    | zero =>
      simp only [List.get?] at hg
      cases hg
      exact List.Forall₂.cons hle (argsLE_refl tl)
    | succ n =>
      simp only [List.get?] at hg
      exact List.Forall₂.cons (argLE_refl hd) (ih n s hg hle)

theorem handleAt_le (richEq : V → V → CmpRes) (slots : List (arginfo V))
    (idx : Nat) (v : V) : argsLE slots (handleAt richEq slots idx v).1 := by
  rcases hg : slots.get? idx with _ | s
  · simp only [handleAt, hg]
    exact argsLE_refl slots
  · simp only [handleAt, hg]
    exact set_le _ slots idx s hg (handle_arg_stats_le richEq s v)

theorem kwLoop_le (richEq : V → V → CmpRes) (nOnly : Nat) :
    ∀ (kws : List (V × V)) (slots : List (arginfo V)),
      argsLE slots (kwLoop richEq nOnly slots kws).1 := by
  intro kws
  induction kws with
  | nil => intro slots; simp only [kwLoop]; exact argsLE_refl slots
  | cons nv rest ih =>
    intro slots
    rcases nv with ⟨name, v⟩
    have hle := handleAt_le richEq slots
    rcases hident : kwIdentScan (slots.drop nOnly) name with _ | k
    · rcases heq : kwEqScan richEq (slots.drop nOnly) name with k | _ | _
      · have h1 := handleAt_le richEq slots (nOnly + k) v
        rcases hh : handleAt richEq slots (nOnly + k) v with ⟨slots', ab⟩
        rw [hh] at h1
        cases ab
        · simp only [kwLoop, hident, heq, hh]
          exact argsLE_trans h1 (ih slots')
        · simp only [kwLoop, hident, heq, hh]
          exact h1
      · simp only [kwLoop, hident, heq]
        exact ih slots
      · simp only [kwLoop, hident, heq]
        exact argsLE_refl slots
    · have h1 := handleAt_le richEq slots (nOnly + k) v
      rcases hh : handleAt richEq slots (nOnly + k) v with ⟨slots', ab⟩
      rw [hh] at h1
      cases ab
      · simp only [kwLoop, hident, hh]
        exact argsLE_trans h1 (ih slots')
      · simp only [kwLoop, hident, hh]
        exact h1

theorem errIncr_le_one (e : Except E R) : errIncr e ≤ 1 := by
  cases e <;> simp [errIncr]

theorem vectorcall_le (richEq : V → V → CmpRes)
    (f : List V → List V → List V → Except E R) (s : StatsWrapperObject V)
    (pos kwnames kwvals : List V) :
    s.total_calls ≤ (statswrapper_vectorcall richEq f s pos kwnames kwvals).1.total_calls ∧
    s.error_results ≤ (statswrapper_vectorcall richEq f s pos kwnames kwvals).1.error_results ∧
    s.invalid_args ≤ (statswrapper_vectorcall richEq f s pos kwnames kwvals).1.invalid_args ∧
    argsLE s.args (statswrapper_vectorcall richEq f s pos kwnames kwvals).1.args := by
  simp only [statswrapper_vectorcall]
  split_ifs <;>
    refine ⟨?_, ?_, ?_, ?_⟩ <;>
      first
        | exact Nat.le_refl _
        | exact Nat.le_add_right _ _
        | exact posLoop_le richEq _ s.args
        | exact argsLE_trans (posLoop_le richEq _ s.args)
            (kwLoop_le richEq s.npos_only _ _)

theorem step_le (richEq : V → V → CmpRes) {s t : StatsWrapperObject V}
    (h : Step richEq s t) :
    s.total_calls ≤ t.total_calls ∧ s.error_results ≤ t.error_results ∧
    s.invalid_args ≤ t.invalid_args ∧ argsLE s.args t.args := by
  cases h with
  | invoke wrapped pos kwnames kwvals =>
    exact vectorcall_le richEq wrapped s pos kwnames kwvals
  | reconfig n =>
    exact ⟨Nat.le_refl _, Nat.le_refl _, Nat.le_refl _, argsLE_refl _⟩

theorem stepStar_le (richEq : V → V → CmpRes) {s t : StatsWrapperObject V}
    (h : StepStar richEq s t) :
    s.total_calls ≤ t.total_calls ∧ s.error_results ≤ t.error_results ∧
    s.invalid_args ≤ t.invalid_args ∧ argsLE s.args t.args := by
  induction h with
  | refl => exact ⟨Nat.le_refl _, Nat.le_refl _, Nat.le_refl _, argsLE_refl _⟩
  | tail _ hstep ih =>
    have h2 := step_le _ hstep
    exact ⟨Nat.le_trans ih.1 h2.1, Nat.le_trans ih.2.1 h2.2.1,
      Nat.le_trans ih.2.2.1 h2.2.2.1, argsLE_trans ih.2.2.2 h2.2.2.2⟩

theorem vectorcall_preserves_bounded (richEq : V → V → CmpRes)
    (f : List V → List V → List V → Except E R) (s : StatsWrapperObject V)
    (pos kwnames kwvals : List V) (h : countersBounded s) :
    countersBounded (statswrapper_vectorcall richEq f s pos kwnames kwvals).1 := by
  simp only [countersBounded, statswrapper_vectorcall]
  split_ifs <;>
    first
      | exact h
      | exact ⟨Nat.add_le_add h.1 (errIncr_le_one _),
          Nat.add_le_add h.2 (by omega)⟩

theorem step_preserves_bounded (richEq : V → V → CmpRes)
    {s t : StatsWrapperObject V} (h : Step richEq s t)
    (hb : countersBounded s) : countersBounded t := by
  cases h with
  | invoke wrapped pos kwnames kwvals =>
    exact vectorcall_preserves_bounded richEq wrapped s pos kwnames kwvals hb
  | reconfig n => exact hb

theorem stepStar_preserves_bounded (richEq : V → V → CmpRes)
    {s t : StatsWrapperObject V} (h : StepStar richEq s t)
    (hb : countersBounded s) : countersBounded t := by
  induction h with
  | refl => exact hb
  | tail _ hstep ih => exact step_preserves_bounded _ hstep ih

theorem create_bounded (posSpecs : List (Option (List V)))
    (kwSpecs : List (V × Option (List V))) :
    countersBounded (stats_wrapper_create posSpecs kwSpecs) :=
  ⟨Nat.le_refl 0, Nat.le_refl 0⟩

/-- C9: along any sequence of invocations and reconfigurations, every counter
of the wrapper — `total_calls`, `error_count`, `invalid_arg_count`, every slot
count and every per-value count — is monotonically non-decreasing; and in
every state reachable from a construction, `error_count ≤ total_calls` and
`invalid_arg_count ≤ total_calls`. -/
theorem counters_monotone_and_bounded :
    (∀ (richEq : V → V → CmpRes) (s t : StatsWrapperObject V),
      StepStar richEq s t →
      s.total_calls ≤ t.total_calls ∧ s.error_results ≤ t.error_results ∧
      s.invalid_args ≤ t.invalid_args ∧ argsLE s.args t.args) ∧
    (∀ (richEq : V → V → CmpRes) (s : StatsWrapperObject V),
      Reachable richEq s →
      s.error_results ≤ s.total_calls ∧ s.invalid_args ≤ s.total_calls) := by
  constructor
  · intro richEq s t h
    exact stepStar_le richEq h
  · intro richEq s h
    obtain ⟨posSpecs, kwSpecs, hstar⟩ := h
    exact stepStar_preserves_bounded richEq hstar (create_bounded posSpecs kwSpecs)

/-- Witness for `counters_monotone_and_bounded`: one invocation step on a
concrete wrapper, and the bounds at a concrete reachable state. -/
theorem counters_monotone_and_bounded_witness :
    StepStar cmpAllFalse wKnown01
      (statswrapper_vectorcall cmpAllFalse wrapUnit wKnown01 [0] [] []).1 ∧
    (wKnown01.total_calls ≤
        (statswrapper_vectorcall cmpAllFalse wrapUnit wKnown01 [0] [] []).1.total_calls ∧
      wKnown01.error_results ≤
        (statswrapper_vectorcall cmpAllFalse wrapUnit wKnown01 [0] [] []).1.error_results ∧
      wKnown01.invalid_args ≤
        (statswrapper_vectorcall cmpAllFalse wrapUnit wKnown01 [0] [] []).1.invalid_args ∧
      argsLE wKnown01.args
        (statswrapper_vectorcall cmpAllFalse wrapUnit wKnown01 [0] [] []).1.args) ∧
    Reachable cmpAllFalse wKnown01 ∧
    (wKnown01.error_results ≤ wKnown01.total_calls ∧
      wKnown01.invalid_args ≤ wKnown01.total_calls) := by
  have hstar : StepStar cmpAllFalse wKnown01
      (statswrapper_vectorcall cmpAllFalse wrapUnit wKnown01 [0] [] []).1 :=
    StepStar.tail (StepStar.refl _) (Step.invoke _ wrapUnit [0] [] [])
  have hreach : Reachable cmpAllFalse wKnown01 :=
    ⟨[some [0, 1]], [], StepStar.refl _⟩
  exact ⟨hstar, counters_monotone_and_bounded.1 cmpAllFalse _ _ hstar,
    hreach, counters_monotone_and_bounded.2 cmpAllFalse _ hreach⟩

/-! Keyword-slot lookup characterisation (C8, C10). -/

theorem get?_drop' {α : Type} : ∀ (i : Nat) (l : List α) (j : Nat),
    (l.drop i).get? j = l.get? (i + j) := by
  intro i
  induction i with
  | zero => intro l j; simp
  | succ n ih =>
    intro l j
    cases l with
    | nil => simp
    | cons x xs =>
      simp only [List.drop_succ_cons, ih xs j]
      have : n + 1 + j = (n + j) + 1 := by omega
      rw [this]
      rfl

theorem firstIdxP_get {α : Type} (p : α → Bool) :
    ∀ (l : List α) (j : Nat), firstIdxP p l = some j →
    ∃ x, l.get? j = some x ∧ p x = true := by
  intro l
  induction l with
  | nil => intro j h; simp [firstIdxP] at h
  | cons x xs ih =>
    intro j h
    simp only [firstIdxP] at h
    by_cases hp : p x
    · rw [if_pos hp] at h
      cases h
      exact ⟨x, rfl, hp⟩
    · rw [if_neg hp] at h
      rcases hx : firstIdxP p xs with _ | j'
      · rw [hx] at h; simp at h
      · rw [hx] at h
        simp only [Option.map_some'] at h
        cases h
        obtain ⟨y, hy, hpy⟩ := ih j' hx
        exact ⟨y, hy, hpy⟩

/-- Under the construction invariant that every slot after `npos_only` is
named, the C identity scan is exactly "first index whose stored name is
identical to the supplied name". -/
theorem kwIdentScan_eq (name : V) :
    ∀ (tail : List (arginfo V)),
    (∀ t ∈ tail, (t.kwname).isSome = true) →
    kwIdentScan tail name = firstIdxP (fun t => decide (t.kwname = some name)) tail := by
  intro tail
  induction tail with
  | nil => intro _; rfl
  | cons t rest ih =>
    intro hnamed
    rcases hkn : t.kwname with _ | n
    · have := hnamed t (by simp)
      rw [hkn] at this
      simp at this
    · simp only [kwIdentScan, hkn, firstIdxP]
      by_cases hn : n = name
      · rw [if_pos hn, if_pos (by simp [hkn, hn])]
      · rw [if_neg hn, if_neg (by simp [hkn, hn])]
        rw [ih (fun t' ht' => hnamed t' (by simp [ht']))]

/-- When every stored name compares cleanly against the supplied name, the C
equality fallback scan is exactly "first index whose stored name compares
equal", and never aborts. -/
theorem kwEqScan_clean (richEq : V → V → CmpRes) (name : V) :
    ∀ (tail : List (arginfo V)),
    (∀ t ∈ tail, (t.kwname).isSome = true) →
    (∀ t ∈ tail, ∀ n, t.kwname = some n → ∃ b, richEq n name = CmpRes.ok b) →
    kwEqScan richEq tail name =
      (match firstIdxP (kwEqPred richEq name) tail with
       | some j => KwFind.found j
       | none => KwFind.notFound) := by
  intro tail
  induction tail with
  | nil => intro _ _; rfl
  | cons t rest ih =>
    intro hnamed hclean
    rcases hkn : t.kwname with _ | n
    · have := hnamed t (by simp)
      rw [hkn] at this
      simp at this
    · obtain ⟨b, hb⟩ := hclean t (by simp) n hkn
      have hrest := ih (fun t' ht' => hnamed t' (by simp [ht']))
        (fun t' ht' => hclean t' (by simp [ht']))
      cases b with
      | true =>
        simp only [kwEqScan, hkn, hb, firstIdxP]
        rw [if_pos (by simp [kwEqPred, hkn, hb])]
      | false =>
        simp only [kwEqScan, hkn, hb, firstIdxP]
        rw [if_neg (by simp [kwEqPred, hkn, hb]), hrest]
        rcases hx : firstIdxP (kwEqPred richEq name) rest with _ | j'
        · simp
        · simp

/-- The function `handle_arg_stats` does not abort when no known-value comparison is
fatal. -/
theorem handle_arg_stats_noabort (richEq : V → V → CmpRes) (a : arginfo V)
    (v : V) (h : ∀ k ∈ a.known_params.getD [], richEq k v ≠ CmpRes.fatalErr) :
    (handle_arg_stats richEq a v).2 = false := by
  cases hb : (handle_arg_stats richEq a v).2 with
  | false => rfl
  | true =>
    obtain ⟨k, hk, hf⟩ := handle_abort_has_fatal richEq a v hb
    exact absurd hf (h k hk)

/-- C8 statement under test. -/
theorem kwarg_slot_lookup_spec (richEq : V → V → CmpRes)
    (f : List V → List V → List V → Except E R) (s : StatsWrapperObject V)
    (name v : V)
    (h0 : (0 : Int) ≤ s.npos)
    (h1 : ∀ t ∈ s.args.drop s.npos_only, (t.kwname).isSome = true)
    (h2 : ∀ t ∈ s.args.drop s.npos_only, ∀ n, t.kwname = some n →
      ∃ b, richEq n name = CmpRes.ok b)
    (h3 : ∀ t ∈ s.args, ∀ k ∈ t.known_params.getD [], richEq k v ≠ CmpRes.fatalErr) :
    (spec_kwFindIdx richEq (s.args.drop s.npos_only) name = none →
      (statswrapper_vectorcall richEq f s [] [name] [v]).1.args = s.args ∧
      (statswrapper_vectorcall richEq f s [] [name] [v]).1.invalid_args =
        s.invalid_args + 1 ∧
      (statswrapper_vectorcall richEq f s [] [name] [v]).2 = some (f [] [name] [v])) ∧
    (∀ j : Nat, spec_kwFindIdx richEq (s.args.drop s.npos_only) name = some j →
      ∃ t, s.args.get? (s.npos_only + j) = some t ∧
        (statswrapper_vectorcall richEq f s [] [name] [v]).1.args =
          s.args.set (s.npos_only + j) (handle_arg_stats richEq t v).1 ∧
        (statswrapper_vectorcall richEq f s [] [name] [v]).1.invalid_args =
          s.invalid_args ∧
        (statswrapper_vectorcall richEq f s [] [name] [v]).2 =
          some (f [] [name] [v])) := by
  have hng : ¬ ((((([] : List V).length) : Nat) : Int) > s.npos) := by
    simp only [List.length_nil, Nat.cast_zero]
    exact Int.not_lt.mpr h0
  have hident := kwIdentScan_eq name (s.args.drop s.npos_only) h1
  have heqs := kwEqScan_clean richEq name (s.args.drop s.npos_only) h1 h2
  rcases hfi : firstIdxP (fun t => decide (t.kwname = some name))
      (s.args.drop s.npos_only) with _ | j0
  · rw [hfi] at hident
    rcases hfe : firstIdxP (kwEqPred richEq name) (s.args.drop s.npos_only)
        with _ | j0
    · rw [hfe] at heqs
      have hspec : spec_kwFindIdx richEq (s.args.drop s.npos_only) name = none := by
        simp [spec_kwFindIdx, hfi, hfe]
      constructor
      · intro _
        refine ⟨?_, ?_, ?_⟩ <;>
          simp [statswrapper_vectorcall, hng, List.take_nil, posLoop, kwLoop,
            hident, heqs]
      · intro j hj
        rw [hspec] at hj
        cases hj
    · rw [hfe] at heqs
      have hspec : spec_kwFindIdx richEq (s.args.drop s.npos_only) name =
          some j0 := by
        simp [spec_kwFindIdx, hfi, hfe]
      obtain ⟨t0, hget0, hp0⟩ := firstIdxP_get _ _ j0 hfe
      have hgetabs : s.args.get? (s.npos_only + j0) = some t0 := by
        rw [← get?_drop']
        exact hget0
      have hmem : t0 ∈ s.args := List.get?_mem hgetabs
      have hnab : (handle_arg_stats richEq t0 v).2 = false :=
        handle_arg_stats_noabort richEq t0 v (h3 t0 hmem)
      have hha : handleAt richEq s.args (s.npos_only + j0) v =
          (s.args.set (s.npos_only + j0) (handle_arg_stats richEq t0 v).1, false) := by
        simp only [handleAt, hgetabs, hnab]
      constructor
      · intro hn
        rw [hspec] at hn
        cases hn
      · intro j hj
        rw [hspec] at hj
        injection hj with hjj
        subst hjj
        refine ⟨t0, hgetabs, ?_, ?_, ?_⟩ <;>
          simp [statswrapper_vectorcall, hng, List.take_nil, posLoop, kwLoop,
            hident, heqs, hha, h0]
  · rw [hfi] at hident
    have hspec : spec_kwFindIdx richEq (s.args.drop s.npos_only) name =
        some j0 := by
      simp [spec_kwFindIdx, hfi]
    obtain ⟨t0, hget0, hp0⟩ := firstIdxP_get _ _ j0 hfi
    have hgetabs : s.args.get? (s.npos_only + j0) = some t0 := by
      rw [← get?_drop']
      exact hget0
    have hmem : t0 ∈ s.args := List.get?_mem hgetabs
    have hnab : (handle_arg_stats richEq t0 v).2 = false :=
      handle_arg_stats_noabort richEq t0 v (h3 t0 hmem)
    have hha : handleAt richEq s.args (s.npos_only + j0) v =
        (s.args.set (s.npos_only + j0) (handle_arg_stats richEq t0 v).1, false) := by
      simp only [handleAt, hgetabs, hnab]
    constructor
    · intro hn
      rw [hspec] at hn
      cases hn
    · intro j hj
      rw [hspec] at hj
      injection hj with hjj
      subst hjj
      refine ⟨t0, hgetabs, ?_, ?_, ?_⟩ <;>
        simp [statswrapper_vectorcall, hng, List.take_nil, posLoop, kwLoop,
          hident, hha, h0]

theorem handle_kwname (richEq : V → V → CmpRes) (a : arginfo V) (v : V) :
    (handle_arg_stats richEq a v).1.kwname = a.kwname := by
  rcases hkp : a.known_params with _ | known
  · simp only [handle_arg_stats, hkp]
  · simp only [handle_arg_stats, hkp]
    split_ifs with hid
    · split
      · rfl
      · split_ifs <;> rfl
    · rfl

theorem handle_count (richEq : V → V → CmpRes) (a : arginfo V) (v : V) :
    (handle_arg_stats richEq a v).1.count = a.count + 1 := by
  rcases hkp : a.known_params with _ | known
  · simp only [handle_arg_stats, hkp]
  · simp only [handle_arg_stats, hkp]
    split_ifs with hid
    · split
      · rfl
      · split_ifs <;> rfl
    · rfl

theorem posLoop_clean (richEq : V → V → CmpRes)
    (hNF : ∀ x y, richEq x y ≠ CmpRes.fatalErr) :
    ∀ (ps : List V) (slots : List (arginfo V)),
    posLoop richEq slots ps = (posApply richEq slots ps, false) := by
  intro ps
  induction ps with
  | nil => intro slots; simp only [posLoop, posApply]
  | cons a as ih =>
    intro slots
    cases slots with
    | nil => simp only [posLoop, posApply]
    | cons t rest =>
      have hnab : (handle_arg_stats richEq t a).2 = false :=
        handle_arg_stats_noabort richEq t a (fun k _ => hNF k a)
      rcases hh : handle_arg_stats richEq t a with ⟨t', ab⟩
      have hab : ab = false := by
        have := congrArg Prod.snd hh
        rw [hnab] at this
        exact this.symm
      subst hab
      simp only [posLoop, posApply, hh, ih rest]

theorem posApply_get? (richEq : V → V → CmpRes) :
    ∀ (i : Nat) (slots : List (arginfo V)) (ps : List V) (t : arginfo V) (p : V),
    slots.get? i = some t → ps.get? i = some p →
    (posApply richEq slots ps).get? i = some (handle_arg_stats richEq t p).1 := by
  intro i
  induction i with
  | zero =>
    intro slots ps t p hs hp
    cases slots with
    | nil => simp at hs
    | cons s rest =>
      cases ps with
      | nil => simp at hp
      | cons a as =>
        simp only [List.get?] at hs hp
        cases hs
        cases hp
        rfl
  | succ n ih =>
    intro slots ps t p hs hp
    cases slots with
    | nil => simp at hs
    | cons s rest =>
      cases ps with
      | nil => simp at hp
      | cons a as =>
        simp only [List.get?] at hs hp
        simp only [posApply, List.get?]
        exact ih rest as t p hs hp

theorem posApply_kwname (richEq : V → V → CmpRes) :
    ∀ (ps : List V) (slots : List (arginfo V)),
    (posApply richEq slots ps).map arginfo.kwname = slots.map arginfo.kwname := by
  intro ps
  induction ps with
  | nil => intro slots; simp only [posApply]
  | cons a as ih =>
    intro slots
    cases slots with
    | nil => simp only [posApply]
    | cons t rest =>
      simp only [posApply, List.map_cons, ih rest, handle_kwname]

theorem map_drop' {α β : Type} (f : α → β) :
    ∀ (n : Nat) (l : List α), (l.drop n).map f = (l.map f).drop n := by
  intro n
  induction n with
  | zero => intro l; simp
  | succ m ih =>
    intro l
    cases l with
    | nil => simp
    | cons x xs => simp only [List.drop_succ_cons, List.map_cons, ih xs]

theorem kwIdentScan_congr (name : V) :
    ∀ (l1 l2 : List (arginfo V)),
    l1.map arginfo.kwname = l2.map arginfo.kwname →
    kwIdentScan l1 name = kwIdentScan l2 name := by
  intro l1
  induction l1 with
  | nil =>
    intro l2 h
    cases l2 with
    | nil => rfl
    | cons y ys => simp at h
  | cons x xs ih =>
    intro l2 h
    cases l2 with
    | nil => simp at h
    | cons y ys =>
      simp only [List.map_cons, List.cons.injEq] at h
      simp only [kwIdentScan, h.1]
      rcases hkn : y.kwname with _ | n
      · rfl
      · rw [ih ys h.2]

theorem get?_some_lt {α : Type} :
    ∀ (l : List α) (i : Nat) (x : α), l.get? i = some x → i < l.length := by
  intro l
  induction l with
  | nil => intro i x h; simp at h
  | cons a as ih =>
    intro i x h
    cases i with
    | zero => simp
    | succ n =>
      simp only [List.get?] at h
      have := ih n x h
      simp only [List.length_cons]
      omega

theorem get?_set_self' {α : Type} :
    ∀ (l : List α) (i : Nat) (x : α), i < l.length →
    (l.set i x).get? i = some x := by
  intro l
  induction l with
  | nil => intro i x h; simp at h
  | cons a as ih =>
    intro i x h
    cases i with
    | zero => rfl
    | succ n =>
      simp only [List.length_cons] at h
      simp only [List.set_cons_succ, List.get?]
      exact ih n x (by omega)

theorem posApply_length (richEq : V → V → CmpRes) :
    ∀ (ps : List V) (slots : List (arginfo V)),
    (posApply richEq slots ps).length = slots.length := by
  intro ps
  induction ps with
  | nil => intro slots; simp only [posApply]
  | cons a as ih =>
    intro slots
    cases slots with
    | nil => simp only [posApply, List.length_nil]
    | cons t rest => simp only [posApply, List.length_cons, ih rest]

/-- C10: a slot reachable both positionally and by keyword, supplied both
ways in one call, is classified twice — its count rises by 2 — the call is
not marked invalid on that account, and the conflicting arguments are still
forwarded unchanged. -/
theorem dual_supply_slot_counted_twice_not_invalid (richEq : V → V → CmpRes)
    (f : List V → List V → List V → Except E R) (s : StatsWrapperObject V)
    (pos : List V) (name v : V) (i : Nat) (t : arginfo V) (p : V)
    (hNF : ∀ x y, richEq x y ≠ CmpRes.fatalErr)
    (hle : (pos.length : Int) ≤ s.npos)
    (hp : pos.get? i = some p)
    (hlo : s.npos_only ≤ i)
    (ht : s.args.get? i = some t)
    (hscan : kwIdentScan (s.args.drop s.npos_only) name = some (i - s.npos_only)) :
    (statswrapper_vectorcall richEq f s pos [name] [v]).1.args.get? i =
      some (handle_arg_stats richEq (handle_arg_stats richEq t p).1 v).1 ∧
    ((statswrapper_vectorcall richEq f s pos [name] [v]).1.args.get? i).map
      arginfo.count = some (t.count + 2) ∧
    (statswrapper_vectorcall richEq f s pos [name] [v]).1.invalid_args =
      s.invalid_args ∧
    (statswrapper_vectorcall richEq f s pos [name] [v]).2 =
      some (f pos [name] [v]) := by
  have hnle : ¬ ((pos.length : Int) > s.npos) := Int.not_lt.mpr hle
  have hpl := posLoop_clean richEq hNF pos s.args
  have hs1 : (posApply richEq s.args pos).get? i =
      some (handle_arg_stats richEq t p).1 :=
    posApply_get? richEq i s.args pos t p ht hp
  have hkw1 : ((posApply richEq s.args pos).drop s.npos_only).map arginfo.kwname =
      (s.args.drop s.npos_only).map arginfo.kwname := by
    rw [map_drop', map_drop', posApply_kwname]
  have hscan1 : kwIdentScan ((posApply richEq s.args pos).drop s.npos_only) name =
      some (i - s.npos_only) := by
    rw [kwIdentScan_congr name _ _ hkw1]
    exact hscan
  have hadd : s.npos_only + (i - s.npos_only) = i := Nat.add_sub_cancel' hlo
  have hnab : (handle_arg_stats richEq (handle_arg_stats richEq t p).1 v).2 = false :=
    handle_arg_stats_noabort richEq _ v (fun k _ => hNF k v)
  have hha : handleAt richEq (posApply richEq s.args pos) i v =
      ((posApply richEq s.args pos).set i
        (handle_arg_stats richEq (handle_arg_stats richEq t p).1 v).1, false) := by
    simp only [handleAt, hs1, hnab]
  have hlt : i < (posApply richEq s.args pos).length := by
    rw [posApply_length]
    exact get?_some_lt s.args i t ht
  have hgetset := get?_set_self' (posApply richEq s.args pos) i
    (handle_arg_stats richEq (handle_arg_stats richEq t p).1 v).1 hlt
  rw [List.get?_eq_getElem?] at hgetset
  refine ⟨?_, ?_, ?_, ?_⟩ <;>
    simp [statswrapper_vectorcall, hnle, List.take_length, hpl, kwLoop,
      hscan1, hadd, hha, hgetset, handle_count, hle]

/-- Witness for `kwarg_slot_lookup_spec`: the keyword `5` is found by
identity at relative index 0 and classified; the call is not invalid. -/
theorem kwarg_slot_lookup_spec_witness :
    ((0 : Int) ≤ wKwOnly5.npos) ∧
    (∀ t ∈ wKwOnly5.args.drop wKwOnly5.npos_only, (t.kwname).isSome = true) ∧
    (∀ t ∈ wKwOnly5.args.drop wKwOnly5.npos_only, ∀ n, t.kwname = some n →
      ∃ b, cmpAllFalse n 5 = CmpRes.ok b) ∧
    (∀ t ∈ wKwOnly5.args, ∀ k ∈ t.known_params.getD [],
      cmpAllFalse k 9 ≠ CmpRes.fatalErr) ∧
    ((spec_kwFindIdx cmpAllFalse (wKwOnly5.args.drop wKwOnly5.npos_only) 5 = none →
      (statswrapper_vectorcall cmpAllFalse wrapUnit wKwOnly5 [] [5] [9]).1.args =
        wKwOnly5.args ∧
      (statswrapper_vectorcall cmpAllFalse wrapUnit wKwOnly5 [] [5] [9]).1.invalid_args =
        wKwOnly5.invalid_args + 1 ∧
      (statswrapper_vectorcall cmpAllFalse wrapUnit wKwOnly5 [] [5] [9]).2 =
        some (wrapUnit [] [5] [9])) ∧
    (∀ j : Nat,
      spec_kwFindIdx cmpAllFalse (wKwOnly5.args.drop wKwOnly5.npos_only) 5 = some j →
      ∃ t, wKwOnly5.args.get? (wKwOnly5.npos_only + j) = some t ∧
        (statswrapper_vectorcall cmpAllFalse wrapUnit wKwOnly5 [] [5] [9]).1.args =
          wKwOnly5.args.set (wKwOnly5.npos_only + j)
            (handle_arg_stats cmpAllFalse t 9).1 ∧
        (statswrapper_vectorcall cmpAllFalse wrapUnit wKwOnly5 [] [5] [9]).1.invalid_args =
          wKwOnly5.invalid_args ∧
        (statswrapper_vectorcall cmpAllFalse wrapUnit wKwOnly5 [] [5] [9]).2 =
          some (wrapUnit [] [5] [9]))) :=
  ⟨by decide, by decide, fun _ _ n _ => ⟨false, rfl⟩, by decide,
    kwarg_slot_lookup_spec cmpAllFalse wrapUnit wKwOnly5 5 9 (by decide)
      (by decide) (fun _ _ n _ => ⟨false, rfl⟩) (by decide)⟩

/-- Witness for `dual_supply_slot_counted_twice_not_invalid`: slot 0 of
`wDual` supplied positionally with 3 and as keyword `5` with 9. -/
theorem dual_supply_slot_counted_twice_not_invalid_witness :
    (∀ x y : Nat, cmpAllFalse x y ≠ CmpRes.fatalErr) ∧
    ((([3] : List Nat).length : Int) ≤ wDual.npos) ∧
    (([3] : List Nat).get? 0 = some 3) ∧
    (wDual.npos_only ≤ 0) ∧
    (wDual.args.get? 0 = some (mkArginfo (some 5) (some [0]))) ∧
    (kwIdentScan (wDual.args.drop wDual.npos_only) 5 = some (0 - wDual.npos_only)) ∧
    ((statswrapper_vectorcall cmpAllFalse wrapUnit wDual [3] [5] [9]).1.args.get? 0 =
      some (handle_arg_stats cmpAllFalse
        (handle_arg_stats cmpAllFalse (mkArginfo (some 5) (some [0])) 3).1 9).1 ∧
    ((statswrapper_vectorcall cmpAllFalse wrapUnit wDual [3] [5] [9]).1.args.get? 0).map
      arginfo.count = some ((mkArginfo (V := Nat) (some 5) (some [0])).count + 2) ∧
    (statswrapper_vectorcall cmpAllFalse wrapUnit wDual [3] [5] [9]).1.invalid_args =
      wDual.invalid_args ∧
    (statswrapper_vectorcall cmpAllFalse wrapUnit wDual [3] [5] [9]).2 =
      some (wrapUnit [3] [5] [9])) :=
  ⟨fun _ _ h => CmpRes.noConfusion h, by decide, rfl, by decide, by decide,
    by decide,
    dual_supply_slot_counted_twice_not_invalid cmpAllFalse wrapUnit wDual
      [3] 5 9 0 (mkArginfo (some 5) (some [0])) 3
      (fun _ _ h => CmpRes.noConfusion h) (by decide) rfl (by decide)
      (by decide) (by decide)⟩
